import Mathlib

/-!
Verification of the English-tool repository's core logic: the tokenizer and
highlight synchronizer of `js/app.js`, and the normalization/stemming lookup
of `js/dictionary.js`.  Strings are modelled as `List Char` (JS strings over
the BMP), JS objects keyed by strings become membership functions
`List Char → Bool`, and the module-level mutable state of `app.js` becomes an
explicit `AppState` record transformed by pure step functions, one per source
function or callback.
-/

namespace EngTool

/-! ## Character classes (JS regex semantics) -/

/-- Characters matched by the JS regex class `\s`. -/
def jsSpaceChars : List Char :=
  [' ', '\t', '\n', '\x0b', '\x0c', '\r',
   Char.ofNat 0xa0, Char.ofNat 0x1680,
   Char.ofNat 0x2000, Char.ofNat 0x2001, Char.ofNat 0x2002, Char.ofNat 0x2003,
   Char.ofNat 0x2004, Char.ofNat 0x2005, Char.ofNat 0x2006, Char.ofNat 0x2007,
   Char.ofNat 0x2008, Char.ofNat 0x2009, Char.ofNat 0x200a,
   Char.ofNat 0x2028, Char.ofNat 0x2029, Char.ofNat 0x202f, Char.ofNat 0x205f,
   Char.ofNat 0x3000, Char.ofNat 0xfeff]

/-- JS regex class `\s` as a Boolean predicate. -/
def isSpaceJS (c : Char) : Bool :=
  decide (c ∈ jsSpaceChars)

/-- JS regex class `\w`: ASCII letters, digits, underscore. -/
def isWordCharJS (c : Char) : Bool :=
  (97 ≤ c.toNat && c.toNat ≤ 122) ||
  (65 ≤ c.toNat && c.toNat ≤ 90) ||
  (48 ≤ c.toNat && c.toNat ≤ 57) ||
  c = '_'

/-- Character class of the first regex alternative `[\w']`. -/
def isWordApos (c : Char) : Bool :=
  isWordCharJS c || c = '\''

/-- Word-character predicate exactly as the specification's tokenizer rule
states it: letters, digits, apostrophe (no underscore). -/
def specIsWordChar (c : Char) : Bool :=
  c.isAlpha || c.isDigit || c = '\''

/-! ## Tokenizer: `text.match(/[\w']+|[^\w\s]+|\s+/g)` in `prepareDisplay` -/

/-- Given the first character of a match, the character class that the firing
regex alternative keeps consuming: `[\w']+` if the first character is a word
character or apostrophe, `\s+` if it is whitespace, `[^\w\s]+` otherwise. -/
def runCls (c : Char) (d : Char) : Bool :=
  if isWordApos c then isWordApos d
  else if isSpaceJS c then isSpaceJS d
  else !isWordCharJS d && !isSpaceJS d

/-- Fuelled worker for the regex-match loop; the fuel is an upper bound on the
input length, so recursion is structural and kernel-reducible. -/
def tokenizeRunsAux : Nat → List Char → List (List Char)
  | 0, _ => []
  | _ + 1, [] => []
  | fuel + 1, c :: rest =>
      (c :: rest.takeWhile (runCls c)) :: tokenizeRunsAux fuel (rest.dropWhile (runCls c))

/-- The token-string list produced by `text.match(/[\w']+|[^\w\s]+|\s+/g) || []`:
successive leftmost regex matches, trying `[\w']+`, then `[^\w\s]+`, then `\s+`. -/
def tokenizeRuns (l : List Char) : List (List Char) :=
  tokenizeRunsAux l.length l

inductive TokenKind
  | word
  | punctuation
  | whitespace
deriving DecidableEq

structure Token where
  text : List Char
  kind : TokenKind
deriving DecidableEq

/-- Test `/^\s+$/.test(word)` used by `prepareDisplay` and `handleWordBoundary`. -/
def isSpaceTest (w : List Char) : Bool :=
  !w.isEmpty && w.all isSpaceJS

/-- Test `/^[^\w]+$/.test(word)` used by `prepareDisplay` and `handleWordBoundary`. -/
def isPunctTest (w : List Char) : Bool :=
  !w.isEmpty && w.all (fun c => !isWordCharJS c)

/-- The branch order of `prepareDisplay`: whitespace test first, then the
punctuation test, everything else is a word element. -/
def classify (w : List Char) : TokenKind :=
  if isSpaceTest w then TokenKind.whitespace
  else if isPunctTest w then TokenKind.punctuation
  else TokenKind.word

/-- Tokens of an input string together with the kind `prepareDisplay`
assigns each of them. -/
def tokenize (l : List Char) : List Token :=
  (tokenizeRuns l).map (fun r => ⟨r, classify r⟩)

/-! ## Dictionary: `js/dictionary.js` -/

/-- JS `toLowerCase` on the ASCII range (the only range that survives the
subsequent `[^a-z]` strip). -/
def toLowerJS (c : Char) : Char :=
  if 65 ≤ c.toNat && c.toNat ≤ 90 then Char.ofNat (c.toNat + 32) else c

/-- Normalization step of `lookup`:
`word.toLowerCase().replace(/[^a-z]/g, '')`. -/
def normalize (w : List Char) : List Char :=
  (w.map toLowerJS).filter (fun c => 97 ≤ c.toNat && c.toNat ≤ 122)

/-- The suffix table of `getBaseForm`, in source order, each with its
`minLength` guard. -/
def suffixRules : List (List Char × Nat) :=
  [("ing".toList, 4), ("ed".toList, 3), ("s".toList, 3), ("es".toList, 4),
   ("er".toList, 4), ("est".toList, 5), ("ly".toList, 4), ("tion".toList, 5),
   ("ment".toList, 5)]

/-- JS `word.slice(0, -n)` for `n ≤ word.length`. -/
def sliceDropRight (w : List Char) (n : Nat) : List Char :=
  w.take (w.length - n)

/-- The stemmer `getBaseForm`: first suffix rule (in table order) that passes
the length guard and matches, with the direct base, then consonant-doubling
undo, then silent-e restoration checked in that order; the first hit wins. -/
def getBaseForm (store : List Char → Bool) (word : List Char) : Option (List Char) :=
  suffixRules.findSome? fun rule =>
    if word.length ≥ rule.2 && rule.1.isSuffixOf word then
      let base := sliceDropRight word rule.1.length
      if store base then some base
      else if (2 ≤ base.length && base.getLast? == base.dropLast.getLast?)
              && store base.dropLast then some base.dropLast
      else if store (base ++ ['e']) then some (base ++ ['e'])
      else none
    else none

structure LookupResult where
  word : List Char
  originalWord : Option (List Char)
deriving DecidableEq

/-- The dictionary `lookup`: reject empty input, normalize, direct store hit,
else stemmer hit carrying the normalized surface form as `originalWord`. -/
def lookup (store : List Char → Bool) (w : List Char) : Option LookupResult :=
  if w.isEmpty then none
  else
    let normalized := normalize w
    if store normalized then some ⟨normalized, none⟩
    else
      match getBaseForm store normalized with
      | some base => some ⟨base, some normalized⟩
      | none => none

/-! ## Application state: the module-level variables of `app.js` -/

/-- Which `onEnd` handler is currently installed on the TTS module: the
default `handleSpeechEnd`, the shadowing phase-1 closure, the pending 1000ms
`setTimeout` between the phases, or the phase-2 completion closure. -/
inductive Phase
  | mainEnd
  | shadowPhase1
  | shadowGap
  | shadowPhase2
deriving DecidableEq

/-- The mutable module state of `app.js`: the token list `words`, the `active`
CSS class of each word element, and the scalar flags, plus the ticker's
closure counter `wordIndex` and whether the interval is installed. -/
structure AppState where
  words : List (List Char)
  active : List Bool
  currentWordIndex : Int
  boundaryFired : Bool
  isSingleWordMode : Bool
  isShadowingMode : Bool
  tickerRunning : Bool
  tickerIdx : Nat
  phase : Phase
deriving DecidableEq

def initState : AppState :=
  { words := [], active := [], currentWordIndex := -1, boundaryFired := false,
    isSingleWordMode := false, isShadowingMode := false, tickerRunning := false,
    tickerIdx := 0, phase := Phase.mainEnd }

/-- Word-element strings among the tokens, in the order `prepareDisplay`
creates spans for them. -/
def wordRuns (ws : List (List Char)) : List (List Char) :=
  ws.filter (fun w => !isSpaceTest w && !isPunctTest w)

/-- Source `highlightWord(index)`: remove the `active` class from the previous
in-bounds index, record the new index, and add the class when in bounds. -/
def highlightWord (i : Int) (s : AppState) : AppState :=
  let len : Int := (s.active.length : Int)
  let a1 := if 0 ≤ s.currentWordIndex ∧ s.currentWordIndex < len
            then s.active.set s.currentWordIndex.toNat false else s.active
  let a2 := if 0 ≤ i ∧ i < len then a1.set i.toNat true else a1
  { s with active := a2, currentWordIndex := i }

/-- Source `clearHighlights()`. -/
def clearHighlights (s : AppState) : AppState :=
  { s with active := s.active.map (fun _ => false), currentWordIndex := -1 }

/-- Source `stopHighlighting()`: clear the interval. -/
def stopHighlighting (s : AppState) : AppState :=
  { s with tickerRunning := false }

/-- Source `startHighlighting(rate)`: restart the ticker, highlight word 0
immediately, and set the closure counter to 1.  The `rate` argument only
scales the tick interval, which the untimed model does not carry. -/
def startHighlighting (s : AppState) : AppState :=
  let s1 := stopHighlighting s
  if s1.active.length = 0 then s1
  else { highlightWord 0 s1 with tickerRunning := true, tickerIdx := 1 }

/-- One firing of the `setInterval` callback in `startHighlighting`: inert
when `boundaryFired`, otherwise advance to the closure's next word or clear
the interval when exhausted. -/
def highlightTick (s : AppState) : AppState :=
  if s.tickerRunning = false then s
  else if s.boundaryFired = true then s
  else if s.tickerIdx < s.active.length then
    { highlightWord (s.tickerIdx : Int) s with tickerIdx := s.tickerIdx + 1 }
  else stopHighlighting s

/-- The offset walk of `handleWordBoundary`: whitespace/punctuation tokens add
their length; a word token whose range contains `charIndex` resolves to the
current word index; otherwise it adds its length plus one assumed space when
it is not the final token. -/
def walkTokens : List (List Char) → Nat → Nat → Nat → Option Nat
  | [], _, _, _ => none
  | w :: rest, charIndex, charCount, wordIdx =>
      if isSpaceTest w || isPunctTest w then
        walkTokens rest charIndex (charCount + w.length) wordIdx
      else if charCount ≤ charIndex ∧ charIndex < charCount + w.length then
        some wordIdx
      else
        walkTokens rest charIndex
          (charCount + w.length + (if rest.isEmpty then 0 else 1)) (wordIdx + 1)

/-- Source `handleWordBoundary(charIndex, charLength)`: ignored in single-word
mode; otherwise sets `boundaryFired` and highlights the resolved word, if any. -/
def handleWordBoundary (charIndex : Nat) (s : AppState) : AppState :=
  if s.isSingleWordMode then s
  else
    let s1 := { s with boundaryFired := true }
    match walkTokens s.words charIndex 0 0 with
    | some i => highlightWord (i : Int) s1
    | none => s1

/-- Source `prepareDisplay(text)`: tokenize, rebuild the word elements (all
unhighlighted), and reset the index and the boundary flag. -/
def prepareDisplay (text : List Char) (s : AppState) : AppState :=
  let ws := tokenizeRuns text
  { s with words := ws,
           active := List.replicate (wordRuns ws).length false,
           currentWordIndex := -1,
           boundaryFired := false }

/-- JS `String.prototype.trim`. -/
def jsTrim (w : List Char) : List Char :=
  ((w.dropWhile isSpaceJS).reverse.dropWhile isSpaceJS).reverse

/-- Source `handlePlay`: reject blank input, else prepare the display and
start highlighting at rate 1.0 (then `TTS.speakNormal`). -/
def handlePlay (input : List Char) (s : AppState) : AppState :=
  let text := jsTrim input
  if text.isEmpty then s
  else startHighlighting (prepareDisplay text s)

/-- Source `handleSlow`: as `handlePlay` but at rate 0.7. -/
def handleSlow (input : List Char) (s : AppState) : AppState :=
  let text := jsTrim input
  if text.isEmpty then s
  else startHighlighting (prepareDisplay text s)

/-- Source `startShadowingMode(text)`: set the mode flag and install the
phase-1 `onEnd` closure, then `TTS.speakNormal` — no ticker is started. -/
def startShadowingMode (s : AppState) : AppState :=
  { s with isShadowingMode := true, phase := Phase.shadowPhase1 }

/-- Source `handleShadowing`: reject blank input, else prepare the display and
enter shadowing mode. -/
def handleShadowing (input : List Char) (s : AppState) : AppState :=
  let text := jsTrim input
  if text.isEmpty then s
  else startShadowingMode (prepareDisplay text s)

/-- Source `handleStop`: cancel speech, leave shadowing mode, clear the ticker
and the highlights, and restore the default `onEnd` handler.  Note that
`boundaryFired` is not touched. -/
def handleStop (s : AppState) : AppState :=
  let s1 := { s with isShadowingMode := false }
  let s2 := stopHighlighting s1
  let s3 := clearHighlights s2
  { s3 with phase := Phase.mainEnd }

/-- Source `handleShadowingComplete`. -/
def handleShadowingComplete (s : AppState) : AppState :=
  let s1 := { s with isShadowingMode := false }
  let s2 := clearHighlights (stopHighlighting s1)
  { s2 with phase := Phase.mainEnd }

/-- Source `handleSpeechEnd` (the default `onEnd` handler). -/
def handleSpeechEnd (s : AppState) : AppState :=
  if s.isSingleWordMode then { s with isSingleWordMode := false }
  else clearHighlights (stopHighlighting s)

/-- A TTS `end` (or `error`) notification, dispatched to whichever handler is
installed: phase 1 of shadowing schedules the 1000ms gap timer, phase 2
completes the run. -/
def speechEnd (s : AppState) : AppState :=
  match s.phase with
  | Phase.mainEnd => handleSpeechEnd s
  | Phase.shadowPhase1 =>
      if s.isShadowingMode then { s with phase := Phase.shadowGap } else s
  | Phase.shadowGap => s
  | Phase.shadowPhase2 => handleShadowingComplete s

/-- The 1000ms `setTimeout` closure of `startShadowingMode` firing: install
the phase-2 handler, clear `boundaryFired`, and start slow highlighting. -/
def gapElapsed (s : AppState) : AppState :=
  if s.phase = Phase.shadowGap then
    if s.isShadowingMode then
      startHighlighting { s with boundaryFired := false, phase := Phase.shadowPhase2 }
    else s
  else s

/-! ## Highlight-operation sequences (claim C10) -/

inductive HOp
  | highlight (i : Int)
  | clear
deriving DecidableEq

def applyHOp (s : AppState) (op : HOp) : AppState :=
  match op with
  | HOp.highlight i => highlightWord i s
  | HOp.clear => clearHighlights s

def applyHOps (s : AppState) (ops : List HOp) : AppState :=
  ops.foldl applyHOp s

/-- One-hot highlight vector: only position `k` carries the `active` class. -/
def onehot (len k : Nat) : List Bool :=
  (List.replicate len false).set k true

/-- Highlight-state invariant: when the recorded index is in bounds exactly
that element is highlighted, otherwise nothing is highlighted. -/
def HlInv (s : AppState) : Prop :=
  if 0 ≤ s.currentWordIndex ∧ s.currentWordIndex < (s.active.length : Int) then
    s.active = onehot s.active.length s.currentWordIndex.toNat
  else
    s.active = List.replicate s.active.length false

instance (s : AppState) : Decidable (HlInv s) := by
  unfold HlInv
  infer_instance

/-! ## List helpers -/

theorem length_dropWhile_le {α : Type} (p : α → Bool) (l : List α) :
    (l.dropWhile p).length ≤ l.length := by
  induction l with
  | nil => simp [List.dropWhile]
  | cons a l ih =>
    simp only [List.dropWhile]
    cases p a with
    | false => simp
    | true => simp only [List.length_cons]; omega

theorem dropWhile_head_false {α : Type} (p : α → Bool) :
    ∀ (l : List α) (d : α) (ds : List α), l.dropWhile p = d :: ds → p d = false := by
  intro l
  induction l with
  | nil => intro d ds h; simp [List.dropWhile] at h
  | cons a l ih =>
    intro d ds h
    simp only [List.dropWhile] at h
    cases hp : p a with
    | true => rw [hp] at h; exact ih d ds h
    | false =>
      rw [hp] at h
      cases h
      exact hp

theorem map_const_false (l : List Bool) :
    l.map (fun _ => false) = List.replicate l.length false := by
  induction l with
  | nil => rfl
  | cons a l ih => simp [List.replicate, ih]

theorem set_replicate_self {α : Type} (a : α) :
    ∀ (n k : Nat), (List.replicate n a).set k a = List.replicate n a := by
  intro n
  induction n with
  | zero => intro k; rfl
  | succ n ih =>
    intro k
    cases k with
    | zero => simp [List.replicate]
    | succ k => simp [List.replicate, List.set, ih]

theorem count_true_replicate_false (n : Nat) :
    (List.replicate n false).count true = 0 := by
  induction n with
  | zero => rfl
  | succ n ih => simp [List.replicate, List.count_cons, ih]

theorem count_true_onehot : ∀ (n k : Nat), k < n → (onehot n k).count true = 1 := by
  intro n
  induction n with
  | zero => intro k h; omega
  | succ n ih =>
    intro k h
    cases k with
    | zero =>
      simp [onehot, List.replicate, List.set, List.count_cons, count_true_replicate_false]
    | succ k =>
      have ihk := ih k (by omega)
      simp only [onehot, List.replicate, List.set] at *
      simp [List.count_cons, ihk]

/-! ## Character-class facts -/

theorem space_not_wordApos (c : Char) (h : isSpaceJS c = true) : isWordApos c = false := by
  have hm : c ∈ jsSpaceChars := of_decide_eq_true h
  simp only [jsSpaceChars, List.mem_cons, List.mem_singleton, List.not_mem_nil, or_false] at hm
  rcases hm with rfl | rfl | rfl | rfl | rfl | rfl | rfl | rfl | rfl | rfl | rfl | rfl |
    rfl | rfl | rfl | rfl | rfl | rfl | rfl | rfl | rfl | rfl | rfl | rfl | rfl <;> decide

theorem wordApos_not_space (c : Char) (h : isWordApos c = true) : isSpaceJS c = false := by
  cases hs : isSpaceJS c with
  | false => rfl
  | true => rw [space_not_wordApos c hs] at h; exact absurd h (by simp)

theorem wordChar_wordApos (c : Char) (h : isWordCharJS c = true) : isWordApos c = true := by
  simp [isWordApos, h]

theorem space_not_wordChar (c : Char) (h : isSpaceJS c = true) : isWordCharJS c = false := by
  have := space_not_wordApos c h
  cases hw : isWordCharJS c with
  | false => rfl
  | true => rw [wordChar_wordApos c hw] at this; exact absurd this (by simp)

theorem apos_of_wordApos_not_wordChar (c : Char) (h1 : isWordApos c = true)
    (h2 : isWordCharJS c = false) : c = '\'' := by
  simp only [isWordApos, h2, Bool.false_or, decide_eq_true_eq] at h1
  exact h1

/-! ## Tokenizer structure lemmas -/

theorem tokenizeRunsAux_nil (fuel : Nat) : tokenizeRunsAux fuel [] = [] := by
  cases fuel <;> rfl

theorem tokenizeRunsAux_congr :
    ∀ (f1 f2 : Nat) (l : List Char), l.length ≤ f1 → l.length ≤ f2 →
      tokenizeRunsAux f1 l = tokenizeRunsAux f2 l := by
  intro f1
  induction f1 with
  | zero =>
    intro f2 l h1 _
    have hl : l = [] := List.length_eq_zero.mp (by omega)
    subst hl
    simp [tokenizeRunsAux_nil]
  | succ f1 ih =>
    intro f2 l h1 h2
    cases l with
    | nil => simp [tokenizeRunsAux_nil]
    | cons c rest =>
      cases f2 with
      | zero => simp at h2
      | succ f2 =>
        simp only [tokenizeRunsAux, List.cons.injEq, true_and]
        have hd := length_dropWhile_le (runCls c) rest
        simp only [List.length_cons] at h1 h2
        exact ih f2 _ (by omega) (by omega)

theorem tokenizeRuns_cons (c : Char) (rest : List Char) :
    tokenizeRuns (c :: rest) =
      (c :: rest.takeWhile (runCls c)) :: tokenizeRuns (rest.dropWhile (runCls c)) := by
  simp only [tokenizeRuns, List.length_cons, tokenizeRunsAux, List.cons.injEq, true_and]
  exact tokenizeRunsAux_congr _ _ _ (length_dropWhile_le _ _) le_rfl

theorem tokenizeRunsAux_flatten :
    ∀ (fuel : Nat) (l : List Char), l.length ≤ fuel →
      (tokenizeRunsAux fuel l).flatten = l := by
  intro fuel
  induction fuel with
  | zero =>
    intro l h
    have hl : l = [] := List.length_eq_zero.mp (by omega)
    subst hl; rfl
  | succ fuel ih =>
    intro l h
    cases l with
    | nil => rfl
    | cons c rest =>
      have hd := length_dropWhile_le (runCls c) rest
      simp only [List.length_cons] at h
      simp only [tokenizeRunsAux, List.flatten_cons, List.cons_append]
      rw [ih _ (by omega)]
      rw [List.takeWhile_append_dropWhile]

theorem tokenizeRunsAux_runs :
    ∀ (fuel : Nat) (l : List Char), l.length ≤ fuel →
      ∀ r ∈ tokenizeRunsAux fuel l, ∃ c cs, r = c :: cs ∧ cs.all (runCls c) = true := by
  intro fuel
  induction fuel with
  | zero =>
    intro l h r hr
    have hl : l = [] := List.length_eq_zero.mp (by omega)
    subst hl; simp [tokenizeRunsAux] at hr
  | succ fuel ih =>
    intro l h r hr
    cases l with
    | nil => simp [tokenizeRunsAux] at hr
    | cons c rest =>
      have hd := length_dropWhile_le (runCls c) rest
      simp only [List.length_cons] at h
      simp only [tokenizeRunsAux, List.mem_cons] at hr
      rcases hr with rfl | hr
      · exact ⟨c, _, rfl, List.all_eq_true.mpr (fun x hx => List.mem_takeWhile_imp hx)⟩
      · exact ih _ (by omega) r hr

theorem tokenizeRunsAux_chain :
    ∀ (fuel : Nat) (l : List Char), l.length ≤ fuel →
      List.Chain' (fun a b => ∃ c cs d ds,
        a = c :: cs ∧ cs.all (runCls c) = true ∧
        b = d :: ds ∧ ds.all (runCls d) = true ∧ runCls c d = false)
        (tokenizeRunsAux fuel l) := by
  intro fuel
  induction fuel with
  | zero =>
    intro l h
    have hl : l = [] := List.length_eq_zero.mp (by omega)
    subst hl
    simp [tokenizeRunsAux]
  | succ fuel ih =>
    intro l h
    cases l with
    | nil => simp [tokenizeRunsAux]
    | cons c rest =>
      have hd := length_dropWhile_le (runCls c) rest
      simp only [List.length_cons] at h
      simp only [tokenizeRunsAux]
      rw [List.chain'_cons']
      refine ⟨?_, ih _ (by omega)⟩
      intro y hy
      cases hdw : rest.dropWhile (runCls c) with
      | nil => rw [hdw, tokenizeRunsAux_nil] at hy; simp at hy
      | cons d ds =>
        rw [hdw] at hy
        have hlen : (d :: ds).length ≤ fuel := by
          rw [hdw] at hd; simp at hd ⊢; omega
        cases fuel with
        | zero => simp at hlen
        | succ fuel2 =>
          simp only [tokenizeRunsAux, List.head?_cons, Option.mem_def,
            Option.some.injEq] at hy
          subst hy
          refine ⟨c, rest.takeWhile (runCls c), d, ds.takeWhile (runCls d),
            rfl, ?_, rfl, ?_, ?_⟩
          · exact List.all_eq_true.mpr (fun x hx => List.mem_takeWhile_imp hx)
          · exact List.all_eq_true.mpr (fun x hx => List.mem_takeWhile_imp hx)
          · exact dropWhile_head_false _ _ _ _ hdw

/-! ## Token classification lemmas -/

theorem classify_spec (c : Char) (cs : List Char) (h : cs.all (runCls c) = true) :
    (classify (c :: cs) = TokenKind.word ↔ (c :: cs).any isWordCharJS = true)
  ∧ (classify (c :: cs) = TokenKind.whitespace ↔ (c :: cs).all isSpaceJS = true)
  ∧ (classify (c :: cs) = TokenKind.word → (c :: cs).all isWordApos = true)
  ∧ (classify (c :: cs) = TokenKind.punctuation →
      (c :: cs).all (fun x => !isWordCharJS x && !isSpaceJS x) = true) := by
  by_cases hA : isWordApos c = true
  · have hfun : runCls c = isWordApos := by funext d; simp [runCls, hA]
    rw [hfun] at h
    have hcs : isSpaceJS c = false := wordApos_not_space c hA
    have hAllSpace : (c :: cs).all isSpaceJS = false := by
      simp [List.all_cons, hcs]
    have hST : isSpaceTest (c :: cs) = false := by
      simp [isSpaceTest, List.all_cons, hcs]
    by_cases hP : isPunctTest (c :: cs) = true
    · have hclass : classify (c :: cs) = TokenKind.punctuation := by
        simp [classify, hST, hP]
      have hPall : ∀ x ∈ c :: cs, isWordCharJS x = false := by
        intro x hx
        have := List.all_eq_true.mp ((Bool.and_eq_true _ _).mp hP).2 x hx
        simpa using this
      have hany : (c :: cs).any isWordCharJS = false := by
        cases hq : (c :: cs).any isWordCharJS with
        | false => rfl
        | true =>
          obtain ⟨x, hx, hw⟩ := List.any_eq_true.mp hq
          rw [hPall x hx] at hw
          exact absurd hw (by simp)
      refine ⟨?_, ?_, ?_, ?_⟩
      · rw [hclass, hany]; simp
      · rw [hclass, hAllSpace]; simp
      · rw [hclass]; intro hcon; exact absurd hcon (by simp)
      · intro _
        apply List.all_eq_true.mpr
        intro x hx
        have hxApos : isWordApos x = true := by
          rcases List.mem_cons.mp hx with rfl | hxc
          · exact hA
          · exact List.all_eq_true.mp h x hxc
        simp [hPall x hx, wordApos_not_space x hxApos]
    · have hclass : classify (c :: cs) = TokenKind.word := by
        simp [classify, hST, hP]
      have hany : (c :: cs).any isWordCharJS = true := by
        by_contra hq
        apply hP
        simp only [isPunctTest, List.isEmpty_cons, Bool.not_false, Bool.true_and]
        apply List.all_eq_true.mpr
        intro x hx
        cases hw : isWordCharJS x with
        | false => simp
        | true => exact absurd (List.any_eq_true.mpr ⟨x, hx, hw⟩) hq
      refine ⟨?_, ?_, ?_, ?_⟩
      · rw [hclass, hany]; simp
      · rw [hclass, hAllSpace]; simp
      · intro _
        simp only [List.all_cons, hA, Bool.true_and]
        exact h
      · rw [hclass]; intro hcon; exact absurd hcon (by simp)
  · have hA' : isWordApos c = false := by simpa using hA
    by_cases hS : isSpaceJS c = true
    · have hfun : runCls c = isSpaceJS := by funext d; simp [runCls, hA', hS]
      rw [hfun] at h
      have hAll : (c :: cs).all isSpaceJS = true := by
        simp [List.all_cons, hS, h]
      have hST : isSpaceTest (c :: cs) = true := by
        simp [isSpaceTest, hAll]
      have hclass : classify (c :: cs) = TokenKind.whitespace := by
        simp [classify, hST]
      have hany : (c :: cs).any isWordCharJS = false := by
        cases hq : (c :: cs).any isWordCharJS with
        | false => rfl
        | true =>
          obtain ⟨x, hx, hw⟩ := List.any_eq_true.mp hq
          have hxs : isSpaceJS x = true := List.all_eq_true.mp hAll x hx
          rw [space_not_wordChar x hxs] at hw
          exact absurd hw (by simp)
      refine ⟨?_, ?_, ?_, ?_⟩
      · rw [hclass, hany]; simp
      · rw [hclass, hAll]; simp
      · rw [hclass]; intro hcon; exact absurd hcon (by simp)
      · rw [hclass]; intro hcon; exact absurd hcon (by simp)
    · have hS' : isSpaceJS c = false := by simpa using hS
      have hw' : isWordCharJS c = false := by
        cases hw : isWordCharJS c with
        | false => rfl
        | true => rw [wordChar_wordApos c hw] at hA'; exact absurd hA' (by simp)
      have hfun : runCls c = fun d => !isWordCharJS d && !isSpaceJS d := by
        funext d; simp [runCls, hA', hS']
      rw [hfun] at h
      have hPall : ∀ x ∈ c :: cs, isWordCharJS x = false ∧ isSpaceJS x = false := by
        intro x hx
        rcases List.mem_cons.mp hx with rfl | hxc
        · exact ⟨hw', hS'⟩
        · have := List.all_eq_true.mp h x hxc
          simp only [Bool.and_eq_true, Bool.not_eq_true'] at this
          exact this
      have hP : isPunctTest (c :: cs) = true := by
        simp only [isPunctTest, List.isEmpty_cons, Bool.not_false, Bool.true_and]
        exact List.all_eq_true.mpr (fun x hx => by simp [(hPall x hx).1])
      have hST : isSpaceTest (c :: cs) = false := by
        simp [isSpaceTest, List.all_cons, hS']
      have hclass : classify (c :: cs) = TokenKind.punctuation := by
        simp [classify, hST, hP]
      have hany : (c :: cs).any isWordCharJS = false := by
        cases hq : (c :: cs).any isWordCharJS with
        | false => rfl
        | true =>
          obtain ⟨x, hx, hw⟩ := List.any_eq_true.mp hq
          rw [(hPall x hx).1] at hw
          exact absurd hw (by simp)
      have hAllSpace : (c :: cs).all isSpaceJS = false := by
        simp [List.all_cons, hS']
      refine ⟨?_, ?_, ?_, ?_⟩
      · rw [hclass, hany]; simp
      · rw [hclass, hAllSpace]; simp
      · rw [hclass]; intro hcon; exact absurd hcon (by simp)
      · intro _
        exact List.all_eq_true.mpr (fun x hx => by simp [(hPall x hx).1, (hPall x hx).2])

/-! ## Dictionary lemmas -/

theorem normalize_chars (w : List Char) :
    ∀ c ∈ normalize w, 97 ≤ c.toNat ∧ c.toNat ≤ 122 := by
  intro c hc
  simp only [normalize, List.mem_filter, Bool.and_eq_true, decide_eq_true_eq] at hc
  exact hc.2

theorem normalize_idem (w : List Char) : normalize (normalize w) = normalize w := by
  have hchars := normalize_chars w
  conv_lhs => rw [normalize]
  rw [List.map_congr_left (g := id) (fun a ha => by
    have hb := hchars a ha
    simp only [toLowerJS, id_eq]
    rw [if_neg]
    simp only [Bool.and_eq_true, decide_eq_true_eq, not_and]
    omega)]
  rw [List.map_id]
  rw [List.filter_eq_self.mpr (fun a ha => by
    have hb := hchars a ha
    simp only [Bool.and_eq_true, decide_eq_true_eq]
    omega)]

theorem getBaseForm_nil (store : List Char → Bool) : getBaseForm store [] = none := rfl

/-! ## Highlight-invariant lemmas -/

theorem highlightWord_preserves_inv (i : Int) (s : AppState) (hs : HlInv s) :
    HlInv (highlightWord i s) := by
  have ha1 : (if 0 ≤ s.currentWordIndex ∧ s.currentWordIndex < ((s.active.length : Int))
              then s.active.set s.currentWordIndex.toNat false else s.active)
           = List.replicate s.active.length false := by
    unfold HlInv at hs
    by_cases hc : 0 ≤ s.currentWordIndex ∧ s.currentWordIndex < ((s.active.length : Int))
    · rw [if_pos hc] at hs ⊢
      conv_lhs => rw [hs]
      rw [onehot, List.set_set, set_replicate_self]
    · rw [if_neg hc] at hs ⊢
      exact hs
  have hsplit : highlightWord i s =
      { s with
        active := if 0 ≤ i ∧ i < ((s.active.length : Int))
                  then (List.replicate s.active.length false).set i.toNat true
                  else List.replicate s.active.length false,
        currentWordIndex := i } := by
    simp only [highlightWord]
    rw [ha1]
  rw [hsplit]
  unfold HlInv
  have hlen : (if 0 ≤ i ∧ i < ((s.active.length : Int))
               then (List.replicate s.active.length false).set i.toNat true
               else List.replicate s.active.length false).length = s.active.length := by
    by_cases hi : 0 ≤ i ∧ i < ((s.active.length : Int)) <;>
      simp [hi, List.length_set]
  simp only [hlen]
  by_cases hi : 0 ≤ i ∧ i < ((s.active.length : Int))
  · rw [if_pos hi, if_pos hi]
    rfl
  · rw [if_neg hi, if_neg hi]

theorem clearHighlights_preserves_inv (s : AppState) : HlInv (clearHighlights s) := by
  unfold HlInv clearHighlights
  simp only [List.length_map]
  rw [if_neg]
  · exact map_const_false s.active
  · simp

theorem applyHOp_preserves_inv (op : HOp) (s : AppState) (hs : HlInv s) :
    HlInv (applyHOp s op) := by
  cases op with
  | highlight i => exact highlightWord_preserves_inv i s hs
  | clear => exact clearHighlights_preserves_inv s

/-! ## Claim theorems -/

/-- C1 (code bug): offset-to-index resolution of authoritative boundary
signals fails on the claim's own example.  On the tokens of "Hello world!"
(`["Hello", " ", "world", "!"]`) the walk of `handleWordBoundary` adds both
the whitespace token's length and an assumed extra space after each
non-final word token, so "world" is assigned the offset range 7..11 and the
reported offset 6 — the true start of "world" — resolves to no word at all:
the walk returns no index and the active word index is left unchanged,
instead of becoming 1 as the claim requires.  Offset 7 resolving to index 1
exhibits the off-by-one shift. -/
theorem boundary_offset_resolution_bug :
    tokenizeRuns "Hello world!".toList =
      ["Hello".toList, [' '], "world".toList, ['!']]
  ∧ walkTokens (tokenizeRuns "Hello world!".toList) 6 0 0 = none
  ∧ walkTokens (tokenizeRuns "Hello world!".toList) 7 0 0 = some 1
  ∧ (handleWordBoundary 6 (handlePlay "Hello world!".toList initState)).currentWordIndex
      = (handlePlay "Hello world!".toList initState).currentWordIndex := by
  decide

/-- C2: authority hand-off between the two highlight signal sources.  Once
`boundaryFired` is set, a fallback tick leaves the whole state — in
particular the active word index — unchanged while the ticker keeps running;
ticks never change `boundaryFired`; processing an authoritative boundary
notification outside single-word mode sets `boundaryFired`; and before any
authoritative signal a tick advances the active index to the ticker's next
word. -/
theorem authority_handoff (s : AppState) (ci : Nat) :
    (s.boundaryFired = true → highlightTick s = s)
  ∧ ((highlightTick s).boundaryFired = s.boundaryFired)
  ∧ (s.isSingleWordMode = false → (handleWordBoundary ci s).boundaryFired = true)
  ∧ (s.boundaryFired = false → s.tickerRunning = true → s.tickerIdx < s.active.length →
      (highlightTick s).currentWordIndex = (s.tickerIdx : Int)
    ∧ (highlightTick s).tickerIdx = s.tickerIdx + 1) := by
  refine ⟨?_, ?_, ?_, ?_⟩
  · intro hb
    rw [highlightTick]
    cases hr : s.tickerRunning with
    | false => simp
    | true => simp [hb]
  · rw [highlightTick]
    cases hr : s.tickerRunning with
    | false => simp
    | true =>
      cases hb : s.boundaryFired with
      | true => simp [hb]
      | false =>
        by_cases hlt : s.tickerIdx < s.active.length
        · simp [hlt, highlightWord, hb]
        · simp [hlt, stopHighlighting, hb]
  · intro hsw
    rw [handleWordBoundary]
    simp only [hsw, Bool.false_eq_true, if_false]
    cases walkTokens s.words ci 0 0 <;> simp [highlightWord]
  · intro hb hr hlt
    rw [highlightTick]
    simp [hr, hb, hlt, highlightWord]

/-- C2 witness: a state with `boundaryFired` set is fixed by a tick; a
boundary notification sets the flag; a tick in a fresh two-word session
advances the index to 1. -/
theorem authority_handoff_witness :
    highlightTick { initState with
                    boundaryFired := true, tickerRunning := true, tickerIdx := 1,
                    active := [true, false], currentWordIndex := 0 }
      = { initState with
          boundaryFired := true, tickerRunning := true, tickerIdx := 1,
          active := [true, false], currentWordIndex := 0 }
  ∧ (handleWordBoundary 0 { initState with
                            words := [['h', 'i']], active := [false] }).boundaryFired = true
  ∧ (highlightTick { initState with
                     tickerRunning := true, tickerIdx := 1,
                     active := [false, false] }).currentWordIndex = ((1 : Nat) : Int) :=
  ⟨(authority_handoff _ 0).1 rfl,
   (authority_handoff _ 0).2.2.1 rfl,
   ((authority_handoff _ 0).2.2.2 rfl rfl (by decide)).1⟩

/-- C3 (code bug): during the normal-speed phase of a shadowing run no
ticker runs and no word is highlighted, but an authoritative boundary event
(offset 0 here) does highlight a word — `handleWordBoundary` only guards on
single-word mode, contradicting the claim and the source's own comment
"Phase 1: Normal speed playback (no highlighting)".  The remaining conjuncts
confirm the rest of the claimed sequence: after the phase-1 speech end and
the gap timer, the slow phase starts with highlighting active. -/
theorem shadowing_normal_phase_highlight_bug :
    (handleShadowing "Hello world!".toList initState).phase = Phase.shadowPhase1
  ∧ (handleShadowing "Hello world!".toList initState).tickerRunning = false
  ∧ (handleShadowing "Hello world!".toList initState).currentWordIndex = -1
  ∧ (handleWordBoundary 0 (handleShadowing "Hello world!".toList initState)).currentWordIndex = 0
  ∧ (handleWordBoundary 0 (handleShadowing "Hello world!".toList initState)).active
      = [true, false]
  ∧ (gapElapsed (speechEnd (handleShadowing "Hello world!".toList initState))).phase
      = Phase.shadowPhase2
  ∧ (gapElapsed (speechEnd (handleShadowing "Hello world!".toList initState))).tickerRunning
      = true := by
  decide

/-- C4: stemmer priority and repair paths.  With a store containing only
"practice", `lookup "practicing"` resolves via silent-e restoration; with
only "run", `lookup "running"` resolves via doubling-undo.  The further
conjuncts pin the search order: the suffix "s" is tried before "es" (with
both "box" and "boxe" in the store, "boxes" resolves to "boxe" and the
search stops), doubling-undo is tried before silent-e restoration (with both
"run" and "runne" present, "running" resolves to "run"), and the direct base
is tried before doubling-undo (with both "runn" and "run" present,
"running" resolves to "runn"). -/
theorem stemmer_priority_paths :
    lookup (fun k => decide (k = "practice".toList)) "practicing".toList
      = some ⟨"practice".toList, some "practicing".toList⟩
  ∧ lookup (fun k => decide (k = "run".toList)) "running".toList
      = some ⟨"run".toList, some "running".toList⟩
  ∧ lookup (fun k => decide (k = "box".toList) || decide (k = "boxe".toList)) "boxes".toList
      = some ⟨"boxe".toList, some "boxes".toList⟩
  ∧ lookup (fun k => decide (k = "run".toList) || decide (k = "runne".toList)) "running".toList
      = some ⟨"run".toList, some "running".toList⟩
  ∧ lookup (fun k => decide (k = "runn".toList) || decide (k = "run".toList)) "running".toList
      = some ⟨"runn".toList, some "running".toList⟩ := by
  decide

/-- C5 counterexample: `handleStop` does not reset the "authoritative signal
observed" flag — from a session state with `boundaryFired` set, stopping
leaves the flag set, contradicting the claim that stop resets it to
`false`. -/
theorem stop_keeps_boundary_flag :
    (handleStop { initState with
                  boundaryFired := true, currentWordIndex := 0,
                  active := [true], words := [['h', 'i']],
                  tickerRunning := true, tickerIdx := 1 }).boundaryFired = true := by
  decide

/-- C5 amended: stop/cancel clears the active word index to -1, halts the
fallback ticker, clears all highlights and leaves shadowing mode, but leaves
`boundaryFired` unchanged; the flag (together with the index) is reset to
`false` by `prepareDisplay`, which runs on every new playback request. -/
theorem session_reset_amended (s : AppState) (t : List Char) :
    (handleStop s).currentWordIndex = -1
  ∧ (handleStop s).tickerRunning = false
  ∧ (handleStop s).boundaryFired = s.boundaryFired
  ∧ (handleStop s).active = List.replicate s.active.length false
  ∧ (handleStop s).isShadowingMode = false
  ∧ (prepareDisplay t s).currentWordIndex = -1
  ∧ (prepareDisplay t s).boundaryFired = false := by
  refine ⟨rfl, rfl, rfl, ?_, rfl, rfl, rfl⟩
  simp [handleStop, clearHighlights, stopHighlighting, map_const_false]

/-- C6 counterexample: the claim's word-character class (letters, digits,
apostrophe) does not match the code.  The input "_" is a maximal run of
non-word, non-whitespace characters under the claim's classes, yet the
tokenizer emits it as a Word token (JS `\w` includes the underscore); and
the input "'" is a maximal run of word characters under the claim's classes,
yet the tokenizer emits it as a Punctuation token (an apostrophe-only run
fails the `[^\w]` word test of `prepareDisplay`). -/
theorem tokenizer_word_class_counterexample :
    tokenize ['_'] = [⟨['_'], TokenKind.word⟩]
  ∧ specIsWordChar '_' = false
  ∧ isSpaceJS '_' = false
  ∧ tokenize ['\''] = [⟨['\''], TokenKind.punctuation⟩]
  ∧ specIsWordChar '\'' = true := by
  decide

/-- C6 amended: every emitted token is nonempty; a token is a Word token
exactly when it contains a JS word character (letter, digit, or
underscore), and Word tokens consist solely of word characters and
apostrophes; a token is a Whitespace token exactly when it consists of
whitespace; Punctuation tokens consist solely of non-word, non-whitespace
characters (an apostrophe-only run is Punctuation); and maximality holds in
that no two adjacent tokens are both Word or both Whitespace. -/
theorem tokenizer_classification_amended (l : List Char) :
    (∀ t ∈ tokenize l,
        t.text ≠ []
      ∧ (t.kind = TokenKind.word ↔ t.text.any isWordCharJS = true)
      ∧ (t.kind = TokenKind.whitespace ↔ t.text.all isSpaceJS = true)
      ∧ (t.kind = TokenKind.word → t.text.all isWordApos = true)
      ∧ (t.kind = TokenKind.punctuation →
          t.text.all (fun x => !isWordCharJS x && !isSpaceJS x) = true))
  ∧ List.Chain' (fun a b => ¬(a.kind = TokenKind.word ∧ b.kind = TokenKind.word)
      ∧ ¬(a.kind = TokenKind.whitespace ∧ b.kind = TokenKind.whitespace))
      (tokenize l) := by
  constructor
  · intro t ht
    simp only [tokenize, List.mem_map] at ht
    obtain ⟨r, hr, rfl⟩ := ht
    obtain ⟨c, cs, rfl, hall⟩ := tokenizeRunsAux_runs _ _ le_rfl r hr
    have hs := classify_spec c cs hall
    exact ⟨by simp, hs.1, hs.2.1, hs.2.2.1, hs.2.2.2⟩
  · rw [tokenize, List.chain'_map]
    apply List.Chain'.imp ?_ (tokenizeRunsAux_chain _ _ le_rfl)
    intro a b hR
    obtain ⟨c, cs, d, ds, rfl, hcs, rfl, hds, hcd⟩ := hR
    have hsc := classify_spec c cs hcs
    have hsd := classify_spec d ds hds
    constructor
    · rintro ⟨hcw, hdw⟩
      have hca : isWordApos c = true :=
        List.all_eq_true.mp (hsc.2.2.1 hcw) c (by simp)
      have hda : isWordApos d = true :=
        List.all_eq_true.mp (hsd.2.2.1 hdw) d (by simp)
      simp [runCls, hca, hda] at hcd
    · rintro ⟨hcw, hdw⟩
      have hcS : isSpaceJS c = true :=
        List.all_eq_true.mp (hsc.2.1.mp hcw) c (by simp)
      have hdS : isSpaceJS d = true :=
        List.all_eq_true.mp (hsd.2.1.mp hdw) d (by simp)
      have hcA : isWordApos c = false := space_not_wordApos c hcS
      simp [runCls, hcA, hcS, hdS] at hcd

/-- C6 witness: "Hello" is emitted as a token of "Hello world!" and, by the
amended classification theorem, it is nonempty. -/
theorem tokenizer_classification_witness :
    ((⟨"Hello".toList, TokenKind.word⟩ : Token) ∈ tokenize "Hello world!".toList)
  ∧ "Hello".toList ≠ [] :=
  ⟨by decide,
   ((tokenizer_classification_amended "Hello world!".toList).1
     ⟨"Hello".toList, TokenKind.word⟩ (by decide)).1⟩

/-- C7: tokenizer round-trip — concatenating the text of all emitted tokens
in order reproduces the input exactly. -/
theorem tokenizer_round_trip (l : List Char) :
    ((tokenize l).map Token.text).flatten = l := by
  simp only [tokenize, List.map_map]
  have hid : (Token.text ∘ fun r => (⟨r, classify r⟩ : Token)) = id := by
    funext r
    rfl
  rw [hid, List.map_id]
  exact tokenizeRunsAux_flatten _ _ le_rfl

/-- C8: lookup normalization invariance — for every surface form and every
store that has no entry for the empty key (dictionary keys are nonempty
word forms), `lookup w` equals `lookup (normalize w)`; casing and
punctuation never affect the result. -/
theorem lookup_normalization (store : List Char → Bool) (w : List Char)
    (hstore : store [] = false) :
    lookup store w = lookup store (normalize w) := by
  by_cases hw : w = []
  · subst hw
    rfl
  · have hw' : w.isEmpty = false := by simp [hw]
    by_cases hn : normalize w = []
    · rw [lookup, lookup]
      simp only [hw', Bool.false_eq_true, if_false, hn]
      simp [hstore, getBaseForm_nil]
    · have hn' : (normalize w).isEmpty = false := by simp [hn]
      rw [lookup, lookup]
      simp only [hw', hn', Bool.false_eq_true, if_false]
      rw [normalize_idem]

/-- C8 witness: with the one-word store "practice", looking up
"Practicing!" agrees with looking up its normalization. -/
theorem lookup_normalization_witness :
    ((fun k => decide (k = "practice".toList)) ([] : List Char) = false)
  ∧ lookup (fun k => decide (k = "practice".toList)) "Practicing!".toList
      = lookup (fun k => decide (k = "practice".toList))
          (normalize "Practicing!".toList) :=
  ⟨by decide, lookup_normalization _ _ (by decide)⟩

/-- C9: empty-input rejection — on input that is empty or all whitespace,
the play, slow, and shadowing handlers return the state unchanged: no
session state (tokens, active word index, boundary flag, ticker) changes. -/
theorem empty_input_rejected (input : List Char) (s : AppState)
    (h : input.all isSpaceJS = true) :
    handlePlay input s = s ∧ handleSlow input s = s ∧ handleShadowing input s = s := by
  have htrim : jsTrim input = [] := by
    rw [jsTrim]
    rw [List.dropWhile_eq_nil_iff.mpr (fun x hx => List.all_eq_true.mp h x hx)]
    rfl
  refine ⟨?_, ?_, ?_⟩ <;> simp [handlePlay, handleSlow, handleShadowing, htrim]

/-- C9 witness: two spaces are all whitespace, and playing them changes
nothing. -/
theorem empty_input_rejected_witness :
    ("  ".toList.all isSpaceJS = true)
  ∧ handlePlay "  ".toList initState = initState :=
  ⟨by decide, (empty_input_rejected "  ".toList initState (by decide)).1⟩

/-- C10 counterexample: the claim fails for out-of-bounds calls — after the
single operation `highlightWord 5` on a one-word display, no element is
highlighted yet the recorded index is 5, which is neither -1 nor an
in-bounds index. -/
theorem highlight_out_of_bounds_counterexample :
    (applyHOps { initState with active := [false] } [HOp.highlight 5]).currentWordIndex = 5
  ∧ (applyHOps { initState with active := [false] } [HOp.highlight 5]).active = [false]
  ∧ ¬((5 : Int) = -1)
  ∧ ¬((5 : Int) < ((1 : Nat) : Int)) := by
  decide

/-- C10 amended: after any sequence of `highlightWord` and `clearHighlights`
operations from a state satisfying the highlight invariant, the invariant
still holds — when the recorded index is in bounds exactly that element is
highlighted, otherwise (index -1 or out of bounds) no element is — and in
particular at most one word element carries the active highlight;
`highlightWord` always removes the previous highlight before setting a new
one. -/
theorem single_highlight_invariant (ops : List HOp) (s : AppState) (hs : HlInv s) :
    HlInv (applyHOps s ops) ∧ (applyHOps s ops).active.count true ≤ 1 := by
  have hinv : HlInv (applyHOps s ops) := by
    induction ops generalizing s with
    | nil => exact hs
    | cons op ops ih =>
      rw [applyHOps, List.foldl_cons]
      exact ih (applyHOp s op) (applyHOp_preserves_inv op s hs)
  refine ⟨hinv, ?_⟩
  unfold HlInv at hinv
  by_cases hc : 0 ≤ (applyHOps s ops).currentWordIndex ∧
      (applyHOps s ops).currentWordIndex < (((applyHOps s ops).active.length : Int))
  · rw [if_pos hc] at hinv
    rw [hinv, count_true_onehot _ _ (by omega)]
  · rw [if_neg hc] at hinv
    rw [hinv, count_true_replicate_false]
    omega

/-- C10 witness: a cleared two-word display satisfies the invariant, and it
is preserved with at most one highlight through a highlight/clear
sequence. -/
theorem single_highlight_invariant_witness :
    HlInv { initState with active := [false, false] }
  ∧ (HlInv (applyHOps { initState with active := [false, false] }
        [HOp.highlight 0, HOp.highlight 1, HOp.clear, HOp.highlight 0])
    ∧ (applyHOps { initState with active := [false, false] }
        [HOp.highlight 0, HOp.highlight 1, HOp.clear, HOp.highlight 0]).active.count true
        ≤ 1) :=
  ⟨by decide, single_highlight_invariant _ _ (by decide)⟩

end EngTool
